import Mathlib

/-!
Verification development for the gocreeper web crawler.

The Go sources are shallowly embedded as follows.

URL layer (crawler/parser.go `Parser.normalizeURL`, crawler/client.go
`Client.IsInScope`, and the parts of Go's net/url package they call:
`url.Parse`, `URL.ResolveReference`, `URL.String`, `URL.Hostname`,
`URL.IsAbs`): pure functions over `String` and a `GoURL` record that
mirrors Go's `url.URL` fields used by this program.  Percent-escape
encoding/decoding, control-character rejection, IPv6 bracket hosts and
userinfo character validation of net/url are not modelled (no claim
depends on them); everything else follows the net/url algorithms
statement by statement.  Go slices bytes while we index characters;
all strings involved in the claims are ASCII, where the two coincide.

Crawler layer (crawler/crawler.go `Crawler.processURL`,
`Crawler.worker`, `Crawler.Start`, `getContentType`): a small-step
transition relation `Step` over a crawl state `CState`.  Each atomic
action of a `processURL` invocation (the `sync.Map.LoadOrStore` visited
check, the depth check, the scope check, the fetch, the result send,
the extraction dispatch, and each non-blocking frontier offer) is one
transition; concurrency between the worker pool and the goroutines
spawned per discovered URL is the interleaving of transitions.
The HTML/CSS/JS extractors are abstracted by the list of raw URL
matches the body yields (`FetchResp.raw`); the code maps
`Parser.normalizeURL` over those matches, and so does the model.
Time is a logical clock `now`; `context.WithTimeout` from `NewCrawler`
is the guard `now < timeout` on issuing a request.

HTTP client layer (crawler/client.go `NewClient`'s CheckRedirect
policy together with net/http's documented redirect loop): the
function `clientGet`.
-/

/-! ## Character-list helpers (Go `strings` operations) -/

/-- Whether the character list `p` is a prefix of `t` (Go `strings.HasPrefix`). -/
def startsWithList : List Char → List Char → Bool
  | [], _ => true
  | _ :: _, [] => false
  | p :: ps, t :: ts => p == t && startsWithList ps ts

/-- Whether the string `pat` occurs as a contiguous substring of `s`
(Go `strings.Contains`). -/
def containsSubAux (p : List Char) : List Char → Bool
  | [] => startsWithList p []
  | t :: ts => startsWithList p (t :: ts) || containsSubAux p ts

/-- Go `strings.Contains s pat`. -/
def containsSub (s pat : String) : Bool := containsSubAux pat.data s.data

/-- Split at the first occurrence of `c`: returns the part before and the
part after the separator (Go `strings.Cut` with a one-character separator,
restricted to the found case; `none` when `c` does not occur). -/
def cutListAux (c : Char) : List Char → Option (List Char × List Char)
  | [] => none
  | a :: rest =>
    if a == c then some ([], rest)
    else
      match cutListAux c rest with
      | none => none
      | some (l, r) => some (a :: l, r)

/-- Split on every occurrence of `c` (Go's repeated `strings.Cut` loop /
`strings.Split`).  Always returns at least one piece. -/
def splitCharAux (c : Char) : List Char → List Char → List (List Char)
  | [], acc => [acc.reverse]
  | a :: rest, acc =>
    if a == c then acc.reverse :: splitCharAux c rest []
    else splitCharAux c rest (a :: acc)

/-- Split a character list on a separator character. -/
def splitChar (c : Char) (l : List Char) : List (List Char) := splitCharAux c l []

/-- Index of the last occurrence of `c` in `l`
(Go `strings.LastIndex`, with `none` for -1). -/
def lastIdxOfAux (c : Char) : List Char → Nat → Option Nat → Option Nat
  | [], _, best => best
  | a :: rest, i, best => lastIdxOfAux c rest (i + 1) (if a == c then some i else best)

/-- Go `strings.LastIndex l c` as an `Option Nat`. -/
def lastIdxOf (c : Char) (l : List Char) : Option Nat := lastIdxOfAux c l 0 none

/-- ASCII lowercasing of a string (Go `strings.ToLower`; schemes are ASCII). -/
def lowerStr (s : String) : String := String.mk (s.data.map Char.toLower)

/-! ## `url.URL` and `url.Parse` (net/url), as used by parser.go and client.go -/

/-- The fields of Go's `url.URL` that this program reads or writes.
`opq` is net/url's `Opaque`; `user` is the `User` userinfo with `""`
standing for the nil `*Userinfo`. -/
structure GoURL where
  scheme : String := ""
  opq : String := ""
  user : String := ""
  host : String := ""
  path : String := ""
  forceQuery : Bool := false
  rawQuery : String := ""
  fragment : String := ""
  omitHost : Bool := false
deriving DecidableEq

/-- net/url `getScheme`: scan for a scheme terminated by a colon.
`none` is the "missing protocol scheme" parse error; otherwise returns
the raw scheme and the rest of the string. -/
def getSchemeAux (s : String) : List Char → Nat → Option (String × String)
  | [], _ => some ("", s)
  | c :: cs, i =>
    if c.isAlpha then getSchemeAux s cs (i + 1)
    else if c.isDigit || c == '+' || c == '-' || c == '.' then
      if i == 0 then some ("", s) else getSchemeAux s cs (i + 1)
    else if c == ':' then
      if i == 0 then none
      else some (String.mk (s.data.take i), String.mk (s.data.drop (i + 1)))
    else some ("", s)

/-- net/url `getScheme` on a whole string. -/
def getScheme (s : String) : Option (String × String) := getSchemeAux s s.data 0

/-- net/url `parseHost` restricted to non-bracketed hosts: if the host has
a colon, the part after the last colon must be a (possibly empty) run of
digits, else the "invalid port" parse error. -/
def parseHost (h : List Char) : Option String :=
  match lastIdxOf ':' h with
  | none => some (String.mk h)
  | some i =>
    if (h.drop (i + 1)).all Char.isDigit then some (String.mk h) else none

/-- net/url `parseAuthority`: split userinfo from host at the last `@`
(userinfo character validation unmodelled).  Returns `(user, host)`. -/
def parseAuthority (a : List Char) : Option (String × String) :=
  match lastIdxOf '@' a with
  | none => (parseHost a).map (fun h => ("", h))
  | some i => (parseHost (a.drop (i + 1))).map (fun h => (String.mk (a.take i), h))

/-- net/url's internal `parse(rawURL, viaRequest := false)`, applied to the
part of the URL before any fragment: scheme, force-query / raw query split,
the opaque (rootless-path) case, the "first path segment in URL cannot
contain colon" error, the authority (`//host`) case with the scheme-less
`///` exception, the `OmitHost` marker, and the path. -/
def goParseNoFrag (rawURL : String) : Option GoURL :=
  match getScheme rawURL with
  | none => none
  | some (schemeRaw, restStr) =>
    let scheme := lowerStr schemeRaw
    let rest₀ := restStr.data
    let qsplit : List Char × Bool × String :=
      if rest₀.getLast? == some '?' && !(rest₀.dropLast.contains '?') then
        (rest₀.dropLast, true, "")
      else
        match cutListAux '?' rest₀ with
        | none => (rest₀, false, "")
        | some (b, q) => (b, false, String.mk q)
    let rest := qsplit.1
    let forceQuery := qsplit.2.1
    let rawQuery := qsplit.2.2
    if !startsWithList ['/'] rest && scheme != "" then
      some { scheme := scheme, opq := String.mk rest,
             forceQuery := forceQuery, rawQuery := rawQuery }
    else if !startsWithList ['/'] rest && scheme == "" &&
        ((splitChar '/' rest).headD []).contains ':' then
      none
    else if (scheme != "" || !startsWithList ['/', '/', '/'] rest) &&
        startsWithList ['/', '/'] rest then
      let afterSlashes := rest.drop 2
      let split : List Char × List Char :=
        match cutListAux '/' afterSlashes with
        | none => (afterSlashes, [])
        | some (auth, tail) => (auth, '/' :: tail)
      match parseAuthority split.1 with
      | none => none
      | some (user, host) =>
        some { scheme := scheme, user := user, host := host,
               path := String.mk split.2,
               forceQuery := forceQuery, rawQuery := rawQuery }
    else
      some { scheme := scheme, path := String.mk rest,
             omitHost := scheme != "" && startsWithList ['/'] rest,
             forceQuery := forceQuery, rawQuery := rawQuery }

/-- net/url `url.Parse`: split off the fragment at the first `#`, parse the
rest, and store the fragment (escape handling unmodelled). -/
def goParse (rawURL : String) : Option GoURL :=
  match cutListAux '#' rawURL.data with
  | none => goParseNoFrag rawURL
  | some (before, frag) =>
    (goParseNoFrag (String.mk before)).map
      (fun u => { u with fragment := String.mk frag })

/-- net/url `URL.IsAbs`. -/
def isAbs (u : GoURL) : Bool := u.scheme != ""

/-! ## `resolvePath`, `ResolveReference`, `String`, `Hostname` (net/url) -/

/-- One iteration of the segment loop in net/url `resolvePath`; the
accumulator is the builder contents and the `first` flag. -/
def resolveStep (acc : List Char × Bool) (elem : List Char) : List Char × Bool :=
  let dst := acc.1
  let first := acc.2
  if elem = ['.'] then (dst, false)
  else if elem = ['.', '.'] then
    let str := dst.drop 1
    match lastIdxOf '/' str with
    | none => (['/'], true)
    | some i => ('/' :: str.take i, first)
  else
    ((if first then dst ++ elem else dst ++ '/' :: elem), false)

/-- net/url `resolvePath base ref`: merge the reference path with the base
path and remove dot segments, including the trailing-slash rule for a final
`.`/`..` segment and the final removal of a doubled leading slash. -/
def resolvePath (base ref : String) : String :=
  let full : List Char :=
    if ref = "" then base.data
    else if !startsWithList ['/'] ref.data then
      (match lastIdxOf '/' base.data with
       | none => []
       | some i => base.data.take (i + 1)) ++ ref.data
    else ref.data
  if full = [] then ""
  else
    let segs := splitChar '/' full
    let dst₀ := (segs.foldl resolveStep (['/'], true)).1
    let lastSeg := segs.getLastD []
    let dst₁ := if lastSeg = ['.'] ∨ lastSeg = ['.', '.'] then dst₀ ++ ['/'] else dst₀
    let dst₂ := if dst₁.get? 1 = some '/' then dst₁.drop 1 else dst₁
    String.mk dst₂

/-- net/url `URL.ResolveReference u ref` (minus escape bookkeeping). -/
def resolveReference (u ref : GoURL) : GoURL :=
  let url := if ref.scheme == "" then { ref with scheme := u.scheme } else ref
  if ref.scheme != "" || ref.host != "" || ref.user != "" then
    { url with path := resolvePath ref.path "" }
  else if ref.opq != "" then
    { url with user := "", host := "", path := "" }
  else
    let url :=
      if ref.path == "" && !ref.forceQuery && ref.rawQuery == "" then
        let url := { url with rawQuery := u.rawQuery }
        if ref.fragment == "" then { url with fragment := u.fragment } else url
      else url
    { url with host := u.host, user := u.user, path := resolvePath u.path ref.path }

/-- net/url `URL.String` (with escaping unmodelled: the path, host and
fragment are written verbatim), including the empty-host omission rule,
the `//` rule, the slash inserted before a rootless path with a host, and
the `./` guard for a relative path whose first segment contains a colon. -/
def urlToString (u : GoURL) : String :=
  let buf₀ := if u.scheme != "" then u.scheme ++ ":" else ""
  let buf :=
    if u.opq != "" then buf₀ ++ u.opq
    else
      let b := buf₀
      let b :=
        if u.scheme != "" || u.host != "" || u.user != "" then
          if u.omitHost && u.host == "" && u.user == "" then b
          else
            let b := if u.host != "" || u.path != "" || u.user != "" then b ++ "//" else b
            let b := if u.user != "" then b ++ u.user ++ "@" else b
            b ++ u.host
        else b
      let b := if u.path != "" && !startsWithList ['/'] u.path.data && u.host != "" then
          b ++ "/" else b
      let b := if b == "" && ((splitChar '/' u.path.data).headD []).contains ':' then
          b ++ "./" else b
      b ++ u.path
  let buf := if u.forceQuery || u.rawQuery != "" then buf ++ "?" ++ u.rawQuery else buf
  if u.fragment != "" then buf ++ "#" ++ u.fragment else buf

/-- net/url `URL.Hostname`: the host with any `:port` stripped
(bracketed IPv6 hosts unmodelled). -/
def hostnameOf (u : GoURL) : String :=
  match cutListAux ':' u.host.data with
  | none => u.host
  | some (b, _) => String.mk b

/-! ## parser.go `Parser.normalizeURL` and client.go `Client.IsInScope` -/

/-- parser.go `Parser.normalizeURL` (lines 107-131): empty input, the
protocol-relative rewrite using the base URL's scheme, parse (empty on
failure), resolution of relative URLs against the base, fragment removal,
and the final absolute string. -/
def normalizeURL (base : GoURL) (urlStr : String) : String :=
  if urlStr == "" then ""
  else
    let urlStr₁ :=
      if startsWithList ['/', '/'] urlStr.data then base.scheme ++ ":" ++ urlStr
      else urlStr
    match goParse urlStr₁ with
    | none => ""
    | some parsedURL =>
      let parsedURL₁ := if !isAbs parsedURL then resolveReference base parsedURL
                        else parsedURL
      let parsedURL₂ := { parsedURL₁ with fragment := "" }
      urlToString parsedURL₂

/-- client.go `Client.IsInScope` (lines 101-107): parse the candidate and
compare hostnames with the base URL; unparsable URLs are out of scope. -/
def IsInScope (base : GoURL) (urlStr : String) : Bool :=
  match goParse urlStr with
  | none => false
  | some parsedURL => hostnameOf parsedURL == hostnameOf base

/-! ## crawler.go `getContentType` -/

/-- crawler.go `getContentType` (lines 217-231): the substring-matching
table from `Content-Type` header to content kind. -/
def getContentType (contentType : String) : String :=
  if containsSub contentType "text/html" then "html"
  else if containsSub contentType "text/css" then "css"
  else if containsSub contentType "javascript" ||
      containsSub contentType "application/javascript" then "javascript"
  else if containsSub contentType "image/" then "image"
  else "other"

/-! ## The crawl orchestrator (crawler.go), as a small-step system -/

/-- crawler.go `CrawlResult` (lines 13-19); the timestamp is the logical
clock value at emission. -/
structure CrawlResult where
  url : String
  depth : Nat
  status : Nat
  timestamp : Nat
  type : String
deriving DecidableEq

/-- What one successful fetch returns: the HTTP status, the Content-Type
header, and the raw URL strings the matching extractor finds in the body
(the parser's regex/DOM matches, before `normalizeURL` is applied). -/
structure FetchResp where
  status : Nat
  contentType : String
  raw : List String
deriving DecidableEq

/-- The crawl configuration after `NewCrawler` succeeded: the parsed base
URL (both `NewClient` and `NewParser` parse `config.URL`), `MaxDepth`,
the `Timeout` that seeds `context.WithTimeout` at construction, and the
network environment: what a GET of each URL returns (`none` is a
transport error). -/
structure Config where
  base : GoURL
  maxDepth : Int
  timeout : Nat
  world : String → Option FetchResp

/-- Capacity of the frontier channel `queue` (crawler.go line 74). -/
def queueCap : Nat := 1000

/-- The program counter of one `processURL` invocation, between its atomic
actions (crawler.go lines 129-215). -/
inductive Phase where
  | start
  | claimed
  | depthOk
  | inScope
  | fetched (resp : FetchResp)
  | emitted (resp : FetchResp)
  | feeding (pending : List String)
  | done
deriving DecidableEq

/-- One live `processURL` invocation: its URL argument, its depth argument,
and its program counter. -/
structure CTask where
  url : String
  depth : Nat
  phase : Phase
deriving DecidableEq

/-- Observable events of a run, recorded for the statements of the claims:
worker dequeues, goroutine spawns, request issues, extraction dispatches,
and frontier offers. -/
inductive Event where
  | dequeued (url : String) (depth : Nat)
  | spawned (url : String) (parentDepth : Nat) (depth : Nat)
  | fetched (url : String) (time : Nat)
  | extracted (url : String) (urls : List String)
  | offered (url : String) (depth : Nat) (accepted : Bool)
deriving DecidableEq

/-- The shared crawl state: logical clock, the visited `sync.Map` (as the
list of stored keys), the frontier channel contents, the emitted results,
the live `processURL` invocations, and the event log. -/
structure CState where
  now : Nat
  visited : List String
  queue : List String
  results : List CrawlResult
  tasks : List CTask
  events : List Event
deriving DecidableEq

/-- The state right after `Start()`: the frontier is seeded with
`c.client.baseURL.String()` (crawler.go line 90), everything else empty,
and the context deadline is `timeout` ticks away. -/
def initState (cfg : Config) : CState :=
  { now := 0, visited := [], queue := [urlToString cfg.base],
    results := [], tasks := [], events := [] }

/-- The content kinds whose bodies are parsed for further URLs
(the `switch` cases of crawler.go lines 171-213). -/
def allowedKinds : List String := ["html", "css", "javascript"]

/-- The extraction dispatch after a result is recorded (crawler.go lines
161-213): only a 200 status with an html/css/javascript content kind is
read and extracted, and every raw match is passed through
`Parser.normalizeURL` (parser.go lines 41-99 always append the normalized
form).  `none` means the body is not processed. -/
def dispatchExtract (cfg : Config) (resp : FetchResp) : Option (List String) :=
  if resp.status = 200 ∧ getContentType resp.contentType ∈ allowedKinds then
    some (resp.raw.map (normalizeURL cfg.base))
  else none

/-- One atomic action of the crawler.  Interleaving of tasks models the
concurrency of the worker pool and of the goroutines spawned per
discovered URL.  `Stop()` and channel closing are not modelled; no claim
refers to them. -/
inductive Step (cfg : Config) : CState → CState → Prop where
  | tick (s : CState) :
      Step cfg s { s with now := s.now + 1 }
  | dequeue (s : CState) (u : String) (qrest : List String)
      (hq : s.queue = u :: qrest) :
      Step cfg s { s with queue := qrest,
                          tasks := s.tasks ++ [⟨u, 0, .start⟩],
                          events := .dequeued u 0 :: s.events }
  | visitedHit (s : CState) (l₁ l₂ : List CTask) (t : CTask)
      (ht : s.tasks = l₁ ++ t :: l₂) (hp : t.phase = .start)
      (hv : t.url ∈ s.visited) :
      Step cfg s { s with tasks := l₁ ++ { t with phase := .done } :: l₂ }
  | visitedMiss (s : CState) (l₁ l₂ : List CTask) (t : CTask)
      (ht : s.tasks = l₁ ++ t :: l₂) (hp : t.phase = .start)
      (hv : t.url ∉ s.visited) :
      Step cfg s { s with visited := t.url :: s.visited,
                          tasks := l₁ ++ { t with phase := .claimed } :: l₂ }
  | depthFail (s : CState) (l₁ l₂ : List CTask) (t : CTask)
      (ht : s.tasks = l₁ ++ t :: l₂) (hp : t.phase = .claimed)
      (hd : (t.depth : Int) > cfg.maxDepth) :
      Step cfg s { s with tasks := l₁ ++ { t with phase := .done } :: l₂ }
  | depthPass (s : CState) (l₁ l₂ : List CTask) (t : CTask)
      (ht : s.tasks = l₁ ++ t :: l₂) (hp : t.phase = .claimed)
      (hd : ¬ (t.depth : Int) > cfg.maxDepth) :
      Step cfg s { s with tasks := l₁ ++ { t with phase := .depthOk } :: l₂ }
  | scopeFail (s : CState) (l₁ l₂ : List CTask) (t : CTask)
      (ht : s.tasks = l₁ ++ t :: l₂) (hp : t.phase = .depthOk)
      (hs : IsInScope cfg.base t.url = false) :
      Step cfg s { s with tasks := l₁ ++ { t with phase := .done } :: l₂ }
  | scopePass (s : CState) (l₁ l₂ : List CTask) (t : CTask)
      (ht : s.tasks = l₁ ++ t :: l₂) (hp : t.phase = .depthOk)
      (hs : IsInScope cfg.base t.url = true) :
      Step cfg s { s with tasks := l₁ ++ { t with phase := .inScope } :: l₂ }
  | fetchErr (s : CState) (l₁ l₂ : List CTask) (t : CTask)
      (ht : s.tasks = l₁ ++ t :: l₂) (hp : t.phase = .inScope)
      (hw : cfg.world t.url = none) :
      Step cfg s { s with tasks := l₁ ++ { t with phase := .done } :: l₂ }
  | fetchExpired (s : CState) (l₁ l₂ : List CTask) (t : CTask)
      (ht : s.tasks = l₁ ++ t :: l₂) (hp : t.phase = .inScope)
      (hc : cfg.timeout ≤ s.now) :
      Step cfg s { s with tasks := l₁ ++ { t with phase := .done } :: l₂ }
  | fetchOk (s : CState) (l₁ l₂ : List CTask) (t : CTask) (resp : FetchResp)
      (ht : s.tasks = l₁ ++ t :: l₂) (hp : t.phase = .inScope)
      (hw : cfg.world t.url = some resp) (hc : s.now < cfg.timeout) :
      Step cfg s { s with tasks := l₁ ++ { t with phase := .fetched resp } :: l₂,
                          events := .fetched t.url s.now :: s.events }
  | emit (s : CState) (l₁ l₂ : List CTask) (t : CTask) (resp : FetchResp)
      (ht : s.tasks = l₁ ++ t :: l₂) (hp : t.phase = .fetched resp) :
      Step cfg s { s with
        results := s.results ++
          [⟨t.url, t.depth, resp.status, s.now, getContentType resp.contentType⟩],
        tasks := l₁ ++ { t with phase := .emitted resp } :: l₂ }
  | extractRun (s : CState) (l₁ l₂ : List CTask) (t : CTask) (resp : FetchResp)
      (urls : List String)
      (ht : s.tasks = l₁ ++ t :: l₂) (hp : t.phase = .emitted resp)
      (he : dispatchExtract cfg resp = some urls) :
      Step cfg s { s with tasks := l₁ ++ { t with phase := .feeding urls } :: l₂,
                          events := .extracted t.url urls :: s.events }
  | extractSkip (s : CState) (l₁ l₂ : List CTask) (t : CTask) (resp : FetchResp)
      (ht : s.tasks = l₁ ++ t :: l₂) (hp : t.phase = .emitted resp)
      (he : dispatchExtract cfg resp = none) :
      Step cfg s { s with tasks := l₁ ++ { t with phase := .done } :: l₂ }
  | offerAccept (s : CState) (l₁ l₂ : List CTask) (t : CTask) (u : String)
      (rest : List String)
      (ht : s.tasks = l₁ ++ t :: l₂) (hp : t.phase = .feeding (u :: rest))
      (hcap : s.queue.length < queueCap) :
      Step cfg s { s with
        queue := s.queue ++ [u],
        tasks := (l₁ ++ { t with phase := .feeding rest } :: l₂)
                   ++ [⟨u, t.depth + 1, .start⟩],
        events := .offered u (t.depth + 1) true ::
                  .spawned u t.depth (t.depth + 1) :: s.events }
  | offerDrop (s : CState) (l₁ l₂ : List CTask) (t : CTask) (u : String)
      (rest : List String)
      (ht : s.tasks = l₁ ++ t :: l₂) (hp : t.phase = .feeding (u :: rest))
      (hcap : queueCap ≤ s.queue.length) (hc : s.now < cfg.timeout) :
      Step cfg s { s with
        tasks := l₁ ++ { t with phase := .feeding rest } :: l₂,
        events := .offered u (t.depth + 1) false :: s.events }
  | offerExpired (s : CState) (l₁ l₂ : List CTask) (t : CTask) (u : String)
      (rest : List String)
      (ht : s.tasks = l₁ ++ t :: l₂) (hp : t.phase = .feeding (u :: rest))
      (hc : cfg.timeout ≤ s.now) :
      Step cfg s { s with tasks := l₁ ++ { t with phase := .done } :: l₂ }
  | feedFinish (s : CState) (l₁ l₂ : List CTask) (t : CTask)
      (ht : s.tasks = l₁ ++ t :: l₂) (hp : t.phase = .feeding []) :
      Step cfg s { s with tasks := l₁ ++ { t with phase := .done } :: l₂ }

/-- States reachable in a crawl run from `Start()`. -/
inductive Reachable (cfg : Config) : CState → Prop where
  | init : Reachable cfg (initState cfg)
  | step {s s' : CState} : Reachable cfg s → Step cfg s s' → Reachable cfg s'

/-! ## Invariants of reachable crawl states -/

/-- Phases in which an invocation has won the `LoadOrStore` gate for its
URL but has not yet sent its result: the exclusive owner of the URL. -/
def ownerPhase : Phase → Bool
  | .claimed | .depthOk | .inScope | .fetched _ => true
  | _ => false

/-- Phases an invocation only reaches after passing the depth check. -/
def depthChecked : Phase → Bool
  | .depthOk | .inScope | .fetched _ | .emitted _ | .feeding _ => true
  | _ => false

/-- Phases an invocation only reaches after passing the scope check. -/
def scopeChecked : Phase → Bool
  | .inScope | .fetched _ | .emitted _ | .feeding _ => true
  | _ => false

/-- How many exclusive claims on the URL `u` exist: live invocations past
the `LoadOrStore` gate that have not yet emitted, plus emitted results. -/
def ownersCount (s : CState) (u : String) : Nat :=
  s.tasks.countP (fun x => x.url == u && ownerPhase x.phase)
  + s.results.countP (fun r => r.url == u)

theorem countP_decomp {α : Type} (p : α → Bool) (l₁ l₂ : List α) (t : α) :
    List.countP p (l₁ ++ t :: l₂) =
      List.countP p l₁ + List.countP p l₂ + (if p t then 1 else 0) := by
  rw [List.countP_append, List.countP_cons]
  omega

theorem ownersCount_decomp (s : CState) (l₁ l₂ : List CTask) (t : CTask)
    (ht : s.tasks = l₁ ++ t :: l₂) (u : String) :
    ownersCount s u =
      List.countP (fun x => x.url == u && ownerPhase x.phase) l₁
      + List.countP (fun x => x.url == u && ownerPhase x.phase) l₂
      + (if t.url == u && ownerPhase t.phase then 1 else 0)
      + List.countP (fun r => r.url == u) s.results := by
  rw [ownersCount, ht, countP_decomp]

theorem forall_mem_update {α : Type} {P : α → Prop} {l₁ l₂ : List α} {t t' : α}
    (h : ∀ x ∈ l₁ ++ t :: l₂, P x) (ht' : P t') :
    ∀ x ∈ l₁ ++ t' :: l₂, P x := by
  intro x hx
  rcases List.mem_append.mp hx with h₁ | h₂
  · exact h x (List.mem_append.mpr (Or.inl h₁))
  · rcases List.mem_cons.mp h₂ with rfl | h₃
    · exact ht'
    · exact h x (List.mem_append.mpr (Or.inr (List.mem_cons_of_mem _ h₃)))

theorem forall_mem_mid {α : Type} {P : α → Prop} {l₁ l₂ : List α} {t : α}
    (h : ∀ x ∈ l₁ ++ t :: l₂, P x) : P t :=
  h t (List.mem_append.mpr (Or.inr (List.mem_cons_self _ _)))

theorem forall_mem_snoc {α : Type} {P : α → Prop} {l : List α} {t : α}
    (h : ∀ x ∈ l, P x) (ht : P t) : ∀ x ∈ l ++ [t], P x := by
  intro x hx
  rcases List.mem_append.mp hx with h₁ | h₂
  · exact h x h₁
  · rcases List.mem_cons.mp h₂ with rfl | h₃
    · exact ht
    · exact absurd h₃ (List.not_mem_nil x)

/-- The inductive invariant of the crawl: exclusive URL ownership
established by the atomic `LoadOrStore`, depth and scope checks already
performed by live invocations, consistency of recorded events, and the
link between fetched responses and the network environment. -/
structure CrawlInv (cfg : Config) (s : CState) : Prop where
  owners_le_one : ∀ u : String, ownersCount s u ≤ 1
  owners_visited : ∀ u : String, u ∉ s.visited → ownersCount s u = 0
  depth_task : ∀ t ∈ s.tasks, depthChecked t.phase = true → (t.depth : Int) ≤ cfg.maxDepth
  depth_res : ∀ r ∈ s.results, (r.depth : Int) ≤ cfg.maxDepth
  scope_task : ∀ t ∈ s.tasks, scopeChecked t.phase = true → IsInScope cfg.base t.url = true
  world_task : ∀ t ∈ s.tasks, ∀ resp, (t.phase = .fetched resp ∨ t.phase = .emitted resp) →
      cfg.world t.url = some resp
  ev_fetched : ∀ u tm, Event.fetched u tm ∈ s.events →
      IsInScope cfg.base u = true ∧ tm < cfg.timeout
  ev_dequeued : ∀ u d, Event.dequeued u d ∈ s.events → d = 0
  ev_spawned : ∀ u pd d, Event.spawned u pd d ∈ s.events → d = pd + 1
  ev_extracted : ∀ u l, Event.extracted u l ∈ s.events →
      ∃ resp, cfg.world u = some resp ∧ dispatchExtract cfg resp = some l

theorem inv_init (cfg : Config) : CrawlInv cfg (initState cfg) := by
  constructor <;> simp [initState, ownersCount]


/-! ## Preservation of the invariant under `Step` -/

theorem owners_update_le {s s' : CState} {u : String} (l₁ l₂ : List CTask) (t t' : CTask)
    (ht : s.tasks = l₁ ++ t :: l₂)
    (htasks : List.countP (fun x => x.url == u && ownerPhase x.phase) s'.tasks
        = List.countP (fun x => x.url == u && ownerPhase x.phase) (l₁ ++ t' :: l₂))
    (hurl : t'.url = t.url)
    (hmono : ownerPhase t'.phase = true → ownerPhase t.phase = true)
    (hres : s'.results = s.results) :
    ownersCount s' u ≤ ownersCount s u := by
  have hd₁ := ownersCount_decomp s l₁ l₂ t ht u
  have hd₂ : ownersCount s' u =
      List.countP (fun x => x.url == u && ownerPhase x.phase) l₁
      + List.countP (fun x => x.url == u && ownerPhase x.phase) l₂
      + (if t'.url == u && ownerPhase t'.phase then 1 else 0)
      + List.countP (fun r => r.url == u) s.results := by
    rw [ownersCount, htasks, countP_decomp, hres]
  rw [hurl] at hd₂
  by_cases hb : t.url = u
  · subst hb
    cases hop : ownerPhase t'.phase
    · simp [hop] at hd₂
      omega
    · have ho2 := hmono hop
      simp [hop, ho2] at hd₁ hd₂
      omega
  · have hbb : (t.url == u) = false := beq_eq_false_iff_ne.mpr hb
    simp [hbb] at hd₁ hd₂
    omega

theorem owners_goals_of_le {s s' : CState}
    (h1 : ∀ u, ownersCount s u ≤ 1)
    (h2 : ∀ u, u ∉ s.visited → ownersCount s u = 0)
    (hvis : s'.visited = s.visited)
    (hle : ∀ u, ownersCount s' u ≤ ownersCount s u) :
    (∀ u, ownersCount s' u ≤ 1) ∧ (∀ u, u ∉ s'.visited → ownersCount s' u = 0) :=
  ⟨fun u => le_trans (hle u) (h1 u),
   fun u hu => Nat.le_zero.mp (le_trans (hle u) (le_of_eq (h2 u (hvis ▸ hu))))⟩

theorem owners_goals_of_eq {s s' : CState}
    (h1 : ∀ u, ownersCount s u ≤ 1)
    (h2 : ∀ u, u ∉ s.visited → ownersCount s u = 0)
    (hvis : s'.visited = s.visited)
    (heq : ∀ u, ownersCount s' u = ownersCount s u) :
    (∀ u, ownersCount s' u ≤ 1) ∧ (∀ u, u ∉ s'.visited → ownersCount s' u = 0) :=
  owners_goals_of_le h1 h2 hvis (fun u => le_of_eq (heq u))

theorem owners_update_emit {s s' : CState} (l₁ l₂ : List CTask) (t t' : CTask)
    (r : CrawlResult)
    (ht : s.tasks = l₁ ++ t :: l₂)
    (htasks : s'.tasks = l₁ ++ t' :: l₂)
    (hres : s'.results = s.results ++ [r])
    (hurl : t'.url = t.url) (hr : r.url = t.url)
    (hop : ownerPhase t.phase = true) (hop' : ownerPhase t'.phase = false) :
    ∀ u, ownersCount s' u = ownersCount s u := by
  intro u
  have hd₁ := ownersCount_decomp s l₁ l₂ t ht u
  have hd₂ := ownersCount_decomp s' l₁ l₂ t' htasks u
  rw [hres, List.countP_append, List.countP_cons, List.countP_nil] at hd₂
  rw [hurl] at hd₂
  by_cases hb : t.url = u
  · subst hb
    simp [hop, hop', hr] at hd₁ hd₂
    omega
  · have hbb : (t.url == u) = false := beq_eq_false_iff_ne.mpr hb
    have hrr : (r.url == u) = false := by rw [hr]; exact hbb
    simp [hbb, hrr, hop, hop'] at hd₁ hd₂
    omega

theorem ownersCount_append_start {s s' : CState} (t₀ : CTask)
    (ht' : s'.tasks = s.tasks ++ [t₀])
    (hres : s'.results = s.results)
    (hph : ownerPhase t₀.phase = false) :
    ∀ u, ownersCount s' u = ownersCount s u := by
  intro u
  rw [ownersCount, ownersCount, ht', hres, List.countP_append, List.countP_cons,
    List.countP_nil]
  simp [hph]

theorem owners_claim_goals {s s' : CState} (l₁ l₂ : List CTask) (t t' : CTask)
    (ht : s.tasks = l₁ ++ t :: l₂)
    (htasks : s'.tasks = l₁ ++ t' :: l₂)
    (hres : s'.results = s.results)
    (hvisited : s'.visited = t.url :: s.visited)
    (hurl : t'.url = t.url)
    (h1 : ∀ u, ownersCount s u ≤ 1)
    (h2 : ∀ u, u ∉ s.visited → ownersCount s u = 0)
    (hv : t.url ∉ s.visited) :
    (∀ u, ownersCount s' u ≤ 1) ∧ (∀ u, u ∉ s'.visited → ownersCount s' u = 0) := by
  constructor
  · intro u
    have hd₁ := ownersCount_decomp s l₁ l₂ t ht u
    have hd₂ := ownersCount_decomp s' l₁ l₂ t' htasks u
    rw [hres, hurl] at hd₂
    by_cases hb : t.url = u
    · subst hb
      have h0 := h2 t.url hv
      rw [hd₁] at h0
      have hle : (if t.url == t.url && ownerPhase t'.phase then 1 else 0) ≤ 1 := by
        split <;> omega
      omega
    · have hbb : (t.url == u) = false := beq_eq_false_iff_ne.mpr hb
      have h1u := h1 u
      simp [hbb] at hd₁ hd₂
      omega
  · intro u hu
    rw [hvisited] at hu
    have hu1 : u ≠ t.url := fun h => hu (h ▸ List.mem_cons_self _ _)
    have hu2 : u ∉ s.visited := fun h => hu (List.mem_cons_of_mem _ h)
    have h0 := h2 u hu2
    have hd₁ := ownersCount_decomp s l₁ l₂ t ht u
    have hd₂ := ownersCount_decomp s' l₁ l₂ t' htasks u
    rw [hres, hurl] at hd₂
    have hbb : (t.url == u) = false := beq_eq_false_iff_ne.mpr (Ne.symm hu1)
    simp [hbb] at hd₁ hd₂
    omega

theorem step_owners {cfg : Config} {s s' : CState} (hstep : Step cfg s s')
    (h1 : ∀ u, ownersCount s u ≤ 1)
    (h2 : ∀ u, u ∉ s.visited → ownersCount s u = 0) :
    (∀ u, ownersCount s' u ≤ 1) ∧ (∀ u, u ∉ s'.visited → ownersCount s' u = 0) := by
  cases hstep with
  | tick => exact ⟨h1, h2⟩
  | dequeue u qrest hq =>
    exact owners_goals_of_eq h1 h2 rfl (ownersCount_append_start _ rfl rfl rfl)
  | visitedHit l₁ l₂ t ht hp hv =>
    exact owners_goals_of_le h1 h2 rfl
      (fun u => owners_update_le l₁ l₂ t _ ht rfl rfl (by simp [ownerPhase]) rfl)
  | visitedMiss l₁ l₂ t ht hp hv =>
    exact owners_claim_goals l₁ l₂ t _ ht rfl rfl rfl rfl h1 h2 hv
  | depthFail l₁ l₂ t ht hp hd =>
    exact owners_goals_of_le h1 h2 rfl
      (fun u => owners_update_le l₁ l₂ t _ ht rfl rfl (by simp [ownerPhase]) rfl)
  | depthPass l₁ l₂ t ht hp hd =>
    exact owners_goals_of_le h1 h2 rfl
      (fun u => owners_update_le l₁ l₂ t _ ht rfl rfl (by simp [ownerPhase, hp]) rfl)
  | scopeFail l₁ l₂ t ht hp hs =>
    exact owners_goals_of_le h1 h2 rfl
      (fun u => owners_update_le l₁ l₂ t _ ht rfl rfl (by simp [ownerPhase]) rfl)
  | scopePass l₁ l₂ t ht hp hs =>
    exact owners_goals_of_le h1 h2 rfl
      (fun u => owners_update_le l₁ l₂ t _ ht rfl rfl (by simp [ownerPhase, hp]) rfl)
  | fetchErr l₁ l₂ t ht hp hw =>
    exact owners_goals_of_le h1 h2 rfl
      (fun u => owners_update_le l₁ l₂ t _ ht rfl rfl (by simp [ownerPhase]) rfl)
  | fetchExpired l₁ l₂ t ht hp hc =>
    exact owners_goals_of_le h1 h2 rfl
      (fun u => owners_update_le l₁ l₂ t _ ht rfl rfl (by simp [ownerPhase]) rfl)
  | fetchOk l₁ l₂ t resp ht hp hw hc =>
    exact owners_goals_of_le h1 h2 rfl
      (fun u => owners_update_le l₁ l₂ t _ ht rfl rfl (by simp [ownerPhase, hp]) rfl)
  | emit l₁ l₂ t resp ht hp =>
    exact owners_goals_of_eq h1 h2 rfl
      (owners_update_emit l₁ l₂ t _ _ ht rfl rfl rfl rfl
        (by simp [hp, ownerPhase]) (by simp [ownerPhase]))
  | extractRun l₁ l₂ t resp urls ht hp he =>
    exact owners_goals_of_le h1 h2 rfl
      (fun u => owners_update_le l₁ l₂ t _ ht rfl rfl (by simp [ownerPhase]) rfl)
  | extractSkip l₁ l₂ t resp ht hp he =>
    exact owners_goals_of_le h1 h2 rfl
      (fun u => owners_update_le l₁ l₂ t _ ht rfl rfl (by simp [ownerPhase]) rfl)
  | offerAccept l₁ l₂ t u₀ rest ht hp hcap =>
    refine owners_goals_of_le h1 h2 rfl
      (fun u => owners_update_le l₁ l₂ t { t with phase := Phase.feeding rest } ht
        ?_ rfl (by simp [ownerPhase]) rfl)
    rw [List.countP_append, List.countP_cons, List.countP_nil]
    simp [ownerPhase]
  | offerDrop l₁ l₂ t u₀ rest ht hp hcap hc =>
    exact owners_goals_of_le h1 h2 rfl
      (fun u => owners_update_le l₁ l₂ t _ ht rfl rfl (by simp [ownerPhase]) rfl)
  | offerExpired l₁ l₂ t u₀ rest ht hp hc =>
    exact owners_goals_of_le h1 h2 rfl
      (fun u => owners_update_le l₁ l₂ t _ ht rfl rfl (by simp [ownerPhase]) rfl)
  | feedFinish l₁ l₂ t ht hp =>
    exact owners_goals_of_le h1 h2 rfl
      (fun u => owners_update_le l₁ l₂ t _ ht rfl rfl (by simp [ownerPhase]) rfl)

theorem step_depth {cfg : Config} {s s' : CState} (hstep : Step cfg s s')
    (hdt : ∀ t ∈ s.tasks, depthChecked t.phase = true → (t.depth : Int) ≤ cfg.maxDepth)
    (hdr : ∀ r ∈ s.results, (r.depth : Int) ≤ cfg.maxDepth) :
    (∀ t ∈ s'.tasks, depthChecked t.phase = true → (t.depth : Int) ≤ cfg.maxDepth) ∧
    (∀ r ∈ s'.results, (r.depth : Int) ≤ cfg.maxDepth) := by
  cases hstep with
  | tick => exact ⟨hdt, hdr⟩
  | dequeue u qrest hq =>
    exact ⟨forall_mem_snoc hdt (by simp [depthChecked]), hdr⟩
  | visitedHit l₁ l₂ t ht hp hv =>
    rw [ht] at hdt
    exact ⟨forall_mem_update hdt (by simp [depthChecked]), hdr⟩
  | visitedMiss l₁ l₂ t ht hp hv =>
    rw [ht] at hdt
    exact ⟨forall_mem_update hdt (by simp [depthChecked]), hdr⟩
  | depthFail l₁ l₂ t ht hp hd =>
    rw [ht] at hdt
    exact ⟨forall_mem_update hdt (by simp [depthChecked]), hdr⟩
  | depthPass l₁ l₂ t ht hp hd =>
    rw [ht] at hdt
    exact ⟨forall_mem_update hdt (fun _ => not_lt.mp hd), hdr⟩
  | scopeFail l₁ l₂ t ht hp hs =>
    rw [ht] at hdt
    exact ⟨forall_mem_update hdt (by simp [depthChecked]), hdr⟩
  | scopePass l₁ l₂ t ht hp hs =>
    rw [ht] at hdt
    exact ⟨forall_mem_update hdt (fun _ => forall_mem_mid hdt (by rw [hp]; rfl)), hdr⟩
  | fetchErr l₁ l₂ t ht hp hw =>
    rw [ht] at hdt
    exact ⟨forall_mem_update hdt (by simp [depthChecked]), hdr⟩
  | fetchExpired l₁ l₂ t ht hp hc =>
    rw [ht] at hdt
    exact ⟨forall_mem_update hdt (by simp [depthChecked]), hdr⟩
  | fetchOk l₁ l₂ t resp ht hp hw hc =>
    rw [ht] at hdt
    exact ⟨forall_mem_update hdt (fun _ => forall_mem_mid hdt (by rw [hp]; rfl)), hdr⟩
  | emit l₁ l₂ t resp ht hp =>
    rw [ht] at hdt
    exact ⟨forall_mem_update hdt (fun _ => forall_mem_mid hdt (by rw [hp]; rfl)),
      forall_mem_snoc hdr (forall_mem_mid hdt (by rw [hp]; rfl))⟩
  | extractRun l₁ l₂ t resp urls ht hp he =>
    rw [ht] at hdt
    exact ⟨forall_mem_update hdt (fun _ => forall_mem_mid hdt (by rw [hp]; rfl)), hdr⟩
  | extractSkip l₁ l₂ t resp ht hp he =>
    rw [ht] at hdt
    exact ⟨forall_mem_update hdt (by simp [depthChecked]), hdr⟩
  | offerAccept l₁ l₂ t u₀ rest ht hp hcap =>
    rw [ht] at hdt
    exact ⟨forall_mem_snoc
      (forall_mem_update hdt (fun _ => forall_mem_mid hdt (by rw [hp]; rfl)))
      (by simp [depthChecked]), hdr⟩
  | offerDrop l₁ l₂ t u₀ rest ht hp hcap hc =>
    rw [ht] at hdt
    exact ⟨forall_mem_update hdt (fun _ => forall_mem_mid hdt (by rw [hp]; rfl)), hdr⟩
  | offerExpired l₁ l₂ t u₀ rest ht hp hc =>
    rw [ht] at hdt
    exact ⟨forall_mem_update hdt (by simp [depthChecked]), hdr⟩
  | feedFinish l₁ l₂ t ht hp =>
    rw [ht] at hdt
    exact ⟨forall_mem_update hdt (by simp [depthChecked]), hdr⟩

theorem step_scope {cfg : Config} {s s' : CState} (hstep : Step cfg s s')
    (hsc : ∀ t ∈ s.tasks, scopeChecked t.phase = true → IsInScope cfg.base t.url = true) :
    ∀ t ∈ s'.tasks, scopeChecked t.phase = true → IsInScope cfg.base t.url = true := by
  cases hstep with
  | tick => exact hsc
  | dequeue u qrest hq =>
    exact forall_mem_snoc hsc (by simp [scopeChecked])
  | visitedHit l₁ l₂ t ht hp hv =>
    rw [ht] at hsc
    exact forall_mem_update hsc (by simp [scopeChecked])
  | visitedMiss l₁ l₂ t ht hp hv =>
    rw [ht] at hsc
    exact forall_mem_update hsc (by simp [scopeChecked])
  | depthFail l₁ l₂ t ht hp hd =>
    rw [ht] at hsc
    exact forall_mem_update hsc (by simp [scopeChecked])
  | depthPass l₁ l₂ t ht hp hd =>
    rw [ht] at hsc
    exact forall_mem_update hsc (by simp [scopeChecked])
  | scopeFail l₁ l₂ t ht hp hs =>
    rw [ht] at hsc
    exact forall_mem_update hsc (by simp [scopeChecked])
  | scopePass l₁ l₂ t ht hp hs =>
    rw [ht] at hsc
    exact forall_mem_update hsc (fun _ => hs)
  | fetchErr l₁ l₂ t ht hp hw =>
    rw [ht] at hsc
    exact forall_mem_update hsc (by simp [scopeChecked])
  | fetchExpired l₁ l₂ t ht hp hc =>
    rw [ht] at hsc
    exact forall_mem_update hsc (by simp [scopeChecked])
  | fetchOk l₁ l₂ t resp ht hp hw hc =>
    rw [ht] at hsc
    exact forall_mem_update hsc (fun _ => forall_mem_mid hsc (by rw [hp]; rfl))
  | emit l₁ l₂ t resp ht hp =>
    rw [ht] at hsc
    exact forall_mem_update hsc (fun _ => forall_mem_mid hsc (by rw [hp]; rfl))
  | extractRun l₁ l₂ t resp urls ht hp he =>
    rw [ht] at hsc
    exact forall_mem_update hsc (fun _ => forall_mem_mid hsc (by rw [hp]; rfl))
  | extractSkip l₁ l₂ t resp ht hp he =>
    rw [ht] at hsc
    exact forall_mem_update hsc (by simp [scopeChecked])
  | offerAccept l₁ l₂ t u₀ rest ht hp hcap =>
    rw [ht] at hsc
    exact forall_mem_snoc
      (forall_mem_update hsc (fun _ => forall_mem_mid hsc (by rw [hp]; rfl)))
      (by simp [scopeChecked])
  | offerDrop l₁ l₂ t u₀ rest ht hp hcap hc =>
    rw [ht] at hsc
    exact forall_mem_update hsc (fun _ => forall_mem_mid hsc (by rw [hp]; rfl))
  | offerExpired l₁ l₂ t u₀ rest ht hp hc =>
    rw [ht] at hsc
    exact forall_mem_update hsc (by simp [scopeChecked])
  | feedFinish l₁ l₂ t ht hp =>
    rw [ht] at hsc
    exact forall_mem_update hsc (by simp [scopeChecked])

theorem step_world {cfg : Config} {s s' : CState} (hstep : Step cfg s s')
    (hwd : ∀ t ∈ s.tasks, ∀ resp, (t.phase = .fetched resp ∨ t.phase = .emitted resp) →
      cfg.world t.url = some resp) :
    ∀ t ∈ s'.tasks, ∀ resp, (t.phase = .fetched resp ∨ t.phase = .emitted resp) →
      cfg.world t.url = some resp := by
  cases hstep with
  | tick => exact hwd
  | dequeue u qrest hq =>
    refine forall_mem_snoc hwd ?_
    intro r hr
    rcases hr with h | h <;> simp at h
  | visitedHit l₁ l₂ t ht hp hv =>
    rw [ht] at hwd
    refine forall_mem_update hwd ?_
    intro r hr
    rcases hr with h | h <;> simp at h
  | visitedMiss l₁ l₂ t ht hp hv =>
    rw [ht] at hwd
    refine forall_mem_update hwd ?_
    intro r hr
    rcases hr with h | h <;> simp at h
  | depthFail l₁ l₂ t ht hp hd =>
    rw [ht] at hwd
    refine forall_mem_update hwd ?_
    intro r hr
    rcases hr with h | h <;> simp at h
  | depthPass l₁ l₂ t ht hp hd =>
    rw [ht] at hwd
    refine forall_mem_update hwd ?_
    intro r hr
    rcases hr with h | h <;> simp at h
  | scopeFail l₁ l₂ t ht hp hs =>
    rw [ht] at hwd
    refine forall_mem_update hwd ?_
    intro r hr
    rcases hr with h | h <;> simp at h
  | scopePass l₁ l₂ t ht hp hs =>
    rw [ht] at hwd
    refine forall_mem_update hwd ?_
    intro r hr
    rcases hr with h | h <;> simp at h
  | fetchErr l₁ l₂ t ht hp hw =>
    rw [ht] at hwd
    refine forall_mem_update hwd ?_
    intro r hr
    rcases hr with h | h <;> simp at h
  | fetchExpired l₁ l₂ t ht hp hc =>
    rw [ht] at hwd
    refine forall_mem_update hwd ?_
    intro r hr
    rcases hr with h | h <;> simp at h
  | fetchOk l₁ l₂ t resp ht hp hw hc =>
    rw [ht] at hwd
    refine forall_mem_update hwd ?_
    intro r hr
    rcases hr with h | h
    · simp at h
      exact h ▸ hw
    · simp at h
  | emit l₁ l₂ t resp ht hp =>
    rw [ht] at hwd
    refine forall_mem_update hwd ?_
    intro r hr
    rcases hr with h | h
    · simp at h
    · simp at h
      exact h ▸ forall_mem_mid hwd resp (Or.inl hp)
  | extractRun l₁ l₂ t resp urls ht hp he =>
    rw [ht] at hwd
    refine forall_mem_update hwd ?_
    intro r hr
    rcases hr with h | h <;> simp at h
  | extractSkip l₁ l₂ t resp ht hp he =>
    rw [ht] at hwd
    refine forall_mem_update hwd ?_
    intro r hr
    rcases hr with h | h <;> simp at h
  | offerAccept l₁ l₂ t u₀ rest ht hp hcap =>
    rw [ht] at hwd
    refine forall_mem_snoc (forall_mem_update hwd ?_) ?_
    · intro r hr
      rcases hr with h | h <;> simp at h
    · intro r hr
      rcases hr with h | h <;> simp at h
  | offerDrop l₁ l₂ t u₀ rest ht hp hcap hc =>
    rw [ht] at hwd
    refine forall_mem_update hwd ?_
    intro r hr
    rcases hr with h | h <;> simp at h
  | offerExpired l₁ l₂ t u₀ rest ht hp hc =>
    rw [ht] at hwd
    refine forall_mem_update hwd ?_
    intro r hr
    rcases hr with h | h <;> simp at h
  | feedFinish l₁ l₂ t ht hp =>
    rw [ht] at hwd
    refine forall_mem_update hwd ?_
    intro r hr
    rcases hr with h | h <;> simp at h

theorem step_events {cfg : Config} {s s' : CState} (hstep : Step cfg s s')
    (hsc : ∀ t ∈ s.tasks, scopeChecked t.phase = true → IsInScope cfg.base t.url = true)
    (hwd : ∀ t ∈ s.tasks, ∀ resp, (t.phase = .fetched resp ∨ t.phase = .emitted resp) →
      cfg.world t.url = some resp)
    (hef : ∀ u tm, Event.fetched u tm ∈ s.events →
      IsInScope cfg.base u = true ∧ tm < cfg.timeout)
    (hed : ∀ u d, Event.dequeued u d ∈ s.events → d = 0)
    (hes : ∀ u pd d, Event.spawned u pd d ∈ s.events → d = pd + 1)
    (hex : ∀ u l, Event.extracted u l ∈ s.events →
      ∃ resp, cfg.world u = some resp ∧ dispatchExtract cfg resp = some l) :
    (∀ u tm, Event.fetched u tm ∈ s'.events →
      IsInScope cfg.base u = true ∧ tm < cfg.timeout) ∧
    (∀ u d, Event.dequeued u d ∈ s'.events → d = 0) ∧
    (∀ u pd d, Event.spawned u pd d ∈ s'.events → d = pd + 1) ∧
    (∀ u l, Event.extracted u l ∈ s'.events →
      ∃ resp, cfg.world u = some resp ∧ dispatchExtract cfg resp = some l) := by
  cases hstep with
  | tick => exact ⟨hef, hed, hes, hex⟩
  | dequeue u qrest hq =>
    refine ⟨?_, ?_, ?_, ?_⟩
    · intro u' tm h
      rcases List.mem_cons.mp h with heq | hmem
      · simp at heq
      · exact hef u' tm hmem
    · intro u' d h
      rcases List.mem_cons.mp h with heq | hmem
      · simp at heq
        exact heq.2
      · exact hed u' d hmem
    · intro u' pd d h
      rcases List.mem_cons.mp h with heq | hmem
      · simp at heq
      · exact hes u' pd d hmem
    · intro u' l h
      rcases List.mem_cons.mp h with heq | hmem
      · simp at heq
      · exact hex u' l hmem
  | visitedHit l₁ l₂ t ht hp hv => exact ⟨hef, hed, hes, hex⟩
  | visitedMiss l₁ l₂ t ht hp hv => exact ⟨hef, hed, hes, hex⟩
  | depthFail l₁ l₂ t ht hp hd => exact ⟨hef, hed, hes, hex⟩
  | depthPass l₁ l₂ t ht hp hd => exact ⟨hef, hed, hes, hex⟩
  | scopeFail l₁ l₂ t ht hp hs => exact ⟨hef, hed, hes, hex⟩
  | scopePass l₁ l₂ t ht hp hs => exact ⟨hef, hed, hes, hex⟩
  | fetchErr l₁ l₂ t ht hp hw => exact ⟨hef, hed, hes, hex⟩
  | fetchExpired l₁ l₂ t ht hp hc => exact ⟨hef, hed, hes, hex⟩
  | fetchOk l₁ l₂ t resp ht hp hw hc =>
    rw [ht] at hsc
    refine ⟨?_, ?_, ?_, ?_⟩
    · intro u' tm h
      rcases List.mem_cons.mp h with heq | hmem
      · simp at heq
        obtain ⟨h₁, h₂⟩ := heq
        subst h₁
        subst h₂
        exact ⟨forall_mem_mid hsc (by rw [hp]; rfl), hc⟩
      · exact hef u' tm hmem
    · intro u' d h
      rcases List.mem_cons.mp h with heq | hmem
      · simp at heq
      · exact hed u' d hmem
    · intro u' pd d h
      rcases List.mem_cons.mp h with heq | hmem
      · simp at heq
      · exact hes u' pd d hmem
    · intro u' l h
      rcases List.mem_cons.mp h with heq | hmem
      · simp at heq
      · exact hex u' l hmem
  | emit l₁ l₂ t resp ht hp => exact ⟨hef, hed, hes, hex⟩
  | extractRun l₁ l₂ t resp urls ht hp he =>
    rw [ht] at hwd
    refine ⟨?_, ?_, ?_, ?_⟩
    · intro u' tm h
      rcases List.mem_cons.mp h with heq | hmem
      · simp at heq
      · exact hef u' tm hmem
    · intro u' d h
      rcases List.mem_cons.mp h with heq | hmem
      · simp at heq
      · exact hed u' d hmem
    · intro u' pd d h
      rcases List.mem_cons.mp h with heq | hmem
      · simp at heq
      · exact hes u' pd d hmem
    · intro u' l h
      rcases List.mem_cons.mp h with heq | hmem
      · simp at heq
        obtain ⟨h₁, h₂⟩ := heq
        subst h₁
        subst h₂
        exact ⟨resp, forall_mem_mid hwd resp (Or.inr hp), he⟩
      · exact hex u' l hmem
  | extractSkip l₁ l₂ t resp ht hp he => exact ⟨hef, hed, hes, hex⟩
  | offerAccept l₁ l₂ t u₀ rest ht hp hcap =>
    refine ⟨?_, ?_, ?_, ?_⟩
    · intro u' tm h
      rcases List.mem_cons.mp h with heq | h
      · simp at heq
      · rcases List.mem_cons.mp h with heq | hmem
        · simp at heq
        · exact hef u' tm hmem
    · intro u' d h
      rcases List.mem_cons.mp h with heq | h
      · simp at heq
      · rcases List.mem_cons.mp h with heq | hmem
        · simp at heq
        · exact hed u' d hmem
    · intro u' pd d h
      rcases List.mem_cons.mp h with heq | h
      · simp at heq
      · rcases List.mem_cons.mp h with heq | hmem
        · simp at heq
          obtain ⟨h₁, h₂, h₃⟩ := heq
          subst h₂
          subst h₃
          rfl
        · exact hes u' pd d hmem
    · intro u' l h
      rcases List.mem_cons.mp h with heq | h
      · simp at heq
      · rcases List.mem_cons.mp h with heq | hmem
        · simp at heq
        · exact hex u' l hmem
  | offerDrop l₁ l₂ t u₀ rest ht hp hcap hc =>
    refine ⟨?_, ?_, ?_, ?_⟩
    · intro u' tm h
      rcases List.mem_cons.mp h with heq | hmem
      · simp at heq
      · exact hef u' tm hmem
    · intro u' d h
      rcases List.mem_cons.mp h with heq | hmem
      · simp at heq
      · exact hed u' d hmem
    · intro u' pd d h
      rcases List.mem_cons.mp h with heq | hmem
      · simp at heq
      · exact hes u' pd d hmem
    · intro u' l h
      rcases List.mem_cons.mp h with heq | hmem
      · simp at heq
      · exact hex u' l hmem
  | offerExpired l₁ l₂ t u₀ rest ht hp hc => exact ⟨hef, hed, hes, hex⟩
  | feedFinish l₁ l₂ t ht hp => exact ⟨hef, hed, hes, hex⟩

theorem inv_step {cfg : Config} {s s' : CState} (inv : CrawlInv cfg s)
    (hstep : Step cfg s s') : CrawlInv cfg s' := by
  obtain ⟨ho1, ho2⟩ := step_owners hstep inv.owners_le_one inv.owners_visited
  obtain ⟨hd1, hd2⟩ := step_depth hstep inv.depth_task inv.depth_res
  have hs1 := step_scope hstep inv.scope_task
  have hw1 := step_world hstep inv.world_task
  obtain ⟨he1, he2, he3, he4⟩ := step_events hstep inv.scope_task inv.world_task
    inv.ev_fetched inv.ev_dequeued inv.ev_spawned inv.ev_extracted
  exact ⟨ho1, ho2, hd1, hd2, hs1, hw1, he1, he2, he3, he4⟩

theorem inv_reachable {cfg : Config} {s : CState} (h : Reachable cfg s) :
    CrawlInv cfg s := by
  induction h with
  | init => exact inv_init cfg
  | step hr hstep ih => exact inv_step ih hstep

/-! ## From the ownership invariant to uniqueness of results -/

theorem results_countP_le {s : CState} (h : ∀ u, ownersCount s u ≤ 1) (u : String) :
    List.countP (fun r => r.url == u) s.results ≤ 1 := by
  have hu := h u
  rw [ownersCount] at hu
  omega

theorem nodup_of_countP_le_one {l : List CrawlResult}
    (h : ∀ u, List.countP (fun r => r.url == u) l ≤ 1) :
    (l.map CrawlResult.url).Nodup := by
  induction l with
  | nil => simp
  | cons r rest ih =>
    simp only [List.map_cons, List.nodup_cons]
    constructor
    · intro hmem
      rcases List.mem_map.mp hmem with ⟨r', hr', hurl⟩
      have hcnt := h r.url
      rw [List.countP_cons] at hcnt
      have hpos : 0 < List.countP (fun x => x.url == r.url) rest :=
        List.countP_pos_iff.mpr ⟨r', hr', by simp [hurl]⟩
      split at hcnt
      · omega
      · next hcond => exact hcond (by simp)
    · refine ih ?_
      intro u
      have hcnt := h u
      rw [List.countP_cons] at hcnt
      omega

/-! ## client.go redirect policy under the net/http redirect loop -/

/-- An HTTP response as the redirect layer sees it: its status code. -/
structure HttpResponse where
  status : Nat
deriving DecidableEq

/-- client.go `NewClient` (lines 48-53): the `CheckRedirect` policy.
`true` means the closure returns `http.ErrUseLastResponse` (net/http then
hands back the most recent response with a nil error); `viaLen` is
`len(via)`, the number of requests already issued. -/
def checkRedirect (maxRedirects : Int) (viaLen : Nat) : Bool :=
  decide ((viaLen : Int) ≥ maxRedirects)

/-- Statuses for which net/http follows a Location redirect. -/
def isRedirectStatus (st : Nat) : Bool :=
  st == 301 || st == 302 || st == 303 || st == 307 || st == 308

/-- The net/http `Client.do` redirect loop (documented semantics)
specialised to the `CheckRedirect` policy of client.go: `chain n` is the
response to the `n`-th request of the chain (1-based).  After receiving
response `n`, if it is a redirect the policy is consulted with
`len(via) = n`; `ErrUseLastResponse` returns response `n` itself as a
normal result, otherwise the next request is issued.  The fuel argument
only bounds the recursion and is chosen so the policy always decides
first. -/
def clientGetAux (maxRedirects : Int) (chain : Nat → HttpResponse) :
    Nat → Nat → HttpResponse
  | 0, n => chain n
  | fuel + 1, n =>
    let r := chain n
    if isRedirectStatus r.status then
      if checkRedirect maxRedirects n then r
      else clientGetAux maxRedirects chain fuel (n + 1)
    else r

/-- client.go `Client.Get` through net/http's redirect handling: the
response `Get` returns for a response chain (no transport errors). -/
def clientGet (maxRedirects : Int) (chain : Nat → HttpResponse) : HttpResponse :=
  clientGetAux maxRedirects chain (maxRedirects.toNat + 1) 1

theorem clientGetAux_stops (m : Int) (chain : Nat → HttpResponse)
    (hm : 1 ≤ m)
    (hred : ∀ n : Nat, 1 ≤ n → (n : Int) ≤ m → isRedirectStatus (chain n).status = true) :
    ∀ (fuel n : Nat), 1 ≤ n → (n : Int) ≤ m → m.toNat + 1 ≤ n + fuel →
      clientGetAux m chain fuel n = chain m.toNat := by
  intro fuel
  induction fuel with
  | zero =>
    intro n h1 h2 h3
    exact absurd h3 (by omega)
  | succ fuel ih =>
    intro n h1 h2 h3
    have hr := hred n h1 h2
    by_cases hstop : (n : Int) ≥ m
    · have hn : n = m.toNat := by omega
      subst hn
      simp [clientGetAux, hr, checkRedirect, hstop]
    · have hcheck : checkRedirect m n = false := by
        simp [checkRedirect]
        omega
      rw [clientGetAux]
      simp only [hr, hcheck, if_true, Bool.false_eq_true, if_false]
      exact ih (n + 1) (by omega) (by omega) (by omega)

/-- A chain of eleven responses in which the first ten are redirects and
the eleventh is a 200 (the redirect chain of the claim's scenario). -/
def redirectChain11 (n : Nat) : HttpResponse :=
  if n ≤ 10 then { status := 301 } else { status := 200 }

/-! ## A concrete crawl run (used for witnesses and counterexamples) -/

/-- The parse of the base URL string "https://x.test/". -/
def exBase : GoURL := { scheme := "https", host := "x.test", path := "/" }

theorem exBase_parse : goParse "https://x.test/" = some exBase := by decide

/-- A 200 HTML response whose body yields one raw extractor match,
`":bad"`, which fails to parse and so normalizes to the empty string. -/
def exResp : FetchResp := { status := 200, contentType := "text/html", raw := [":bad"] }

/-- A concrete configuration: base "https://x.test/", maxDepth 3,
timeout 30 ticks, and a network in which only the base URL responds. -/
def exCfg : Config :=
  { base := exBase, maxDepth := 3, timeout := 30,
    world := fun u => if u = "https://x.test/" then some exResp else none }

def exS0 : CState := initState exCfg

def exS1 : CState :=
  { now := 0, visited := [], queue := [], results := [],
    tasks := [⟨"https://x.test/", 0, .start⟩],
    events := [.dequeued "https://x.test/" 0] }

def exS2 : CState :=
  { now := 0, visited := ["https://x.test/"], queue := [], results := [],
    tasks := [⟨"https://x.test/", 0, .claimed⟩],
    events := [.dequeued "https://x.test/" 0] }

def exS3 : CState :=
  { now := 0, visited := ["https://x.test/"], queue := [], results := [],
    tasks := [⟨"https://x.test/", 0, .depthOk⟩],
    events := [.dequeued "https://x.test/" 0] }

def exS4 : CState :=
  { now := 0, visited := ["https://x.test/"], queue := [], results := [],
    tasks := [⟨"https://x.test/", 0, .inScope⟩],
    events := [.dequeued "https://x.test/" 0] }

def exS5 : CState :=
  { now := 0, visited := ["https://x.test/"], queue := [], results := [],
    tasks := [⟨"https://x.test/", 0, .fetched exResp⟩],
    events := [.fetched "https://x.test/" 0, .dequeued "https://x.test/" 0] }

def exS6 : CState :=
  { now := 0, visited := ["https://x.test/"], queue := [],
    results := [⟨"https://x.test/", 0, 200, 0, "html"⟩],
    tasks := [⟨"https://x.test/", 0, .emitted exResp⟩],
    events := [.fetched "https://x.test/" 0, .dequeued "https://x.test/" 0] }

def exS7 : CState :=
  { now := 0, visited := ["https://x.test/"], queue := [],
    results := [⟨"https://x.test/", 0, 200, 0, "html"⟩],
    tasks := [⟨"https://x.test/", 0, .feeding [""]⟩],
    events := [.extracted "https://x.test/" [""],
               .fetched "https://x.test/" 0, .dequeued "https://x.test/" 0] }

def exS8 : CState :=
  { now := 0, visited := ["https://x.test/"], queue := [""],
    results := [⟨"https://x.test/", 0, 200, 0, "html"⟩],
    tasks := [⟨"https://x.test/", 0, .feeding []⟩, ⟨"", 1, .start⟩],
    events := [.offered "" 1 true, .spawned "" 0 1,
               .extracted "https://x.test/" [""],
               .fetched "https://x.test/" 0, .dequeued "https://x.test/" 0] }

theorem exStep1 : Step exCfg exS0 exS1 :=
  Step.dequeue exS0 "https://x.test/" [] (by decide)

theorem exStep2 : Step exCfg exS1 exS2 :=
  Step.visitedMiss exS1 [] [] ⟨"https://x.test/", 0, .start⟩ (by decide) rfl (by decide)

theorem exStep3 : Step exCfg exS2 exS3 :=
  Step.depthPass exS2 [] [] ⟨"https://x.test/", 0, .claimed⟩ (by decide) rfl (by decide)

theorem exStep4 : Step exCfg exS3 exS4 :=
  Step.scopePass exS3 [] [] ⟨"https://x.test/", 0, .depthOk⟩ (by decide) rfl (by decide)

theorem exStep5 : Step exCfg exS4 exS5 :=
  Step.fetchOk exS4 [] [] ⟨"https://x.test/", 0, .inScope⟩ exResp (by decide) rfl
    (by decide) (by decide)

theorem exStep6 : Step exCfg exS5 exS6 :=
  Step.emit exS5 [] [] ⟨"https://x.test/", 0, .fetched exResp⟩ exResp (by decide) rfl

theorem exStep7 : Step exCfg exS6 exS7 :=
  Step.extractRun exS6 [] [] ⟨"https://x.test/", 0, .emitted exResp⟩ exResp [""]
    (by decide) rfl (by decide)

theorem exStep8 : Step exCfg exS7 exS8 :=
  Step.offerAccept exS7 [] [] ⟨"https://x.test/", 0, .feeding [""]⟩ "" [] (by decide)
    rfl (by decide)

theorem exReach8 : Reachable exCfg exS8 :=
  Reachable.step (Reachable.step (Reachable.step (Reachable.step (Reachable.step
    (Reachable.step (Reachable.step (Reachable.step Reachable.init exStep1) exStep2)
      exStep3) exStep4) exStep5) exStep6) exStep7) exStep8

/-! ## Substring monotonicity (for the content-kind table) -/

theorem containsSubAux_of_startsWith_append (a b : List Char) :
    ∀ l, startsWithList (a ++ b) l = true → containsSubAux b l = true := by
  induction a with
  | nil =>
    intro l h
    cases l with
    | nil => exact h
    | cons d l' =>
      rw [containsSubAux]
      simp only [List.nil_append] at h
      simp [h]
  | cons c a' ih =>
    intro l h
    cases l with
    | nil => simp [startsWithList] at h
    | cons d l' =>
      rw [List.cons_append, startsWithList] at h
      simp only [Bool.and_eq_true] at h
      rw [containsSubAux]
      simp [ih l' h.2]

theorem containsSubAux_mono (a b : List Char) :
    ∀ l, containsSubAux (a ++ b) l = true → containsSubAux b l = true := by
  intro l
  induction l with
  | nil =>
    intro h
    cases a with
    | nil => exact h
    | cons c a' => simp [containsSubAux, startsWithList] at h
  | cons d l' ih =>
    intro h
    rw [containsSubAux] at h
    simp only [Bool.or_eq_true] at h
    rcases h with h | h
    · exact containsSubAux_of_startsWith_append a b _ h
    · rw [containsSubAux]
      simp [ih h]

theorem containsSub_appjs (s : String) :
    containsSub s "application/javascript" = true → containsSub s "javascript" = true := by
  intro h
  rw [containsSub] at h ⊢
  have hsplit : ("application/javascript".data) =
      ("application/".data) ++ ("javascript".data) := by decide
  rw [hsplit] at h
  exact containsSubAux_mono _ _ _ h

/-- The content-kind table exactly as the claim words it, with a
"starts with image/" row (for comparison against `getContentType`,
whose image row is a substring test). -/
def specContentTypeTable (contentType : String) : String :=
  if containsSub contentType "text/html" then "html"
  else if containsSub contentType "text/css" then "css"
  else if containsSub contentType "javascript" then "javascript"
  else if startsWithList ("image/".data) contentType.data then "image"
  else "other"

/-! ## The claims -/

/-- Claim C1: for every crawl run and every URL string, at most one
CrawlResult is emitted for that URL — the result stream never repeats a
URL — and while a URL's result is emitted no live invocation still owns
it: the first inserter into the visited set is the sole processor, any
later attempt observes the key present and contributes nothing. -/
theorem claim_C1_unique_results (cfg : Config) (s : CState) (h : Reachable cfg s) :
    ((s.results.map CrawlResult.url).Nodup) ∧
    (∀ t ∈ s.tasks, ownerPhase t.phase = true → ∀ r ∈ s.results, r.url ≠ t.url) := by
  have inv := inv_reachable h
  constructor
  · exact nodup_of_countP_le_one (fun u => results_countP_le inv.owners_le_one u)
  · intro t htm hop r hrm heq
    have hcnt := inv.owners_le_one t.url
    rw [ownersCount] at hcnt
    have h1 : 0 < List.countP (fun x => x.url == t.url && ownerPhase x.phase) s.tasks :=
      List.countP_pos_iff.mpr ⟨t, htm, by simp [hop]⟩
    have h2 : 0 < List.countP (fun r => r.url == t.url) s.results :=
      List.countP_pos_iff.mpr ⟨r, hrm, by simp [heq]⟩
    omega

theorem claim_C1_unique_results_witness :
    ((exS8.results.map CrawlResult.url).Nodup) ∧
    (∀ t ∈ exS8.tasks, ownerPhase t.phase = true → ∀ r ∈ exS8.results, r.url ≠ t.url) :=
  claim_C1_unique_results exCfg exS8 exReach8

/-- Claim C2: every emitted CrawlResult has depth at most the configured
maxDepth, and every invocation that survived the depth check (and may
still fetch or emit) has depth at most maxDepth — an item whose depth
exceeds maxDepth is abandoned before fetching and produces no result. -/
theorem claim_C2_depth_bounded (cfg : Config) (s : CState) (h : Reachable cfg s) :
    (∀ r ∈ s.results, (r.depth : Int) ≤ cfg.maxDepth) ∧
    (∀ t ∈ s.tasks, depthChecked t.phase = true → (t.depth : Int) ≤ cfg.maxDepth) :=
  ⟨(inv_reachable h).depth_res, (inv_reachable h).depth_task⟩

theorem claim_C2_depth_bounded_witness :
    (∀ r ∈ exS8.results, (r.depth : Int) ≤ exCfg.maxDepth) ∧
    (∀ t ∈ exS8.tasks, depthChecked t.phase = true → (t.depth : Int) ≤ exCfg.maxDepth) :=
  claim_C2_depth_bounded exCfg exS8 exReach8

/-- Claim C3: the code violates idempotence of `normalizeURL`.  With the
parser base URL "x.test" (accepted by NewParser; it parses with an empty
scheme), the input "a/..///c" normalizes to "//c", but renormalizing
"//c" triggers the protocol-relative rewrite with the empty scheme,
producing the unparsable "://c", so the second application yields "".
The spec requires normalize(normalize(x)) = normalize(x). -/
theorem claim_C3_idempotence_fails :
    goParse "x.test" = some { path := "x.test" } ∧
    normalizeURL { path := "x.test" } "a/..///c" = "//c" ∧
    normalizeURL { path := "x.test" } (normalizeURL { path := "x.test" } "a/..///c") = "" ∧
    normalizeURL { path := "x.test" } (normalizeURL { path := "x.test" } "a/..///c") ≠
      normalizeURL { path := "x.test" } "a/..///c" :=
  ⟨by decide, by decide, by decide, by decide⟩

/-- Claim C4: `normalizeURL` case by case — empty input yields the empty
string; an input beginning with "//" is first rewritten with the base
URL's scheme; an input that fails to parse yields the empty string; a
relative URL is resolved against the fixed base URL; an absolute URL is
returned as its string form (fragment stripped); and with base
https://x.test/css/s.css the input img/a.png normalizes to
https://x.test/css/img/a.png. -/
theorem claim_C4_normalize_cases :
    (∀ base : GoURL, normalizeURL base "" = "") ∧
    (∀ (base : GoURL) (s : String), s ≠ "" →
      startsWithList ['/', '/'] s.data = true →
      normalizeURL base s =
        (match goParse (base.scheme ++ ":" ++ s) with
         | none => ""
         | some u =>
           urlToString { (if !isAbs u then resolveReference base u else u) with
                         fragment := "" })) ∧
    (∀ (base : GoURL) (s : String), s ≠ "" →
      startsWithList ['/', '/'] s.data = false →
      goParse s = none → normalizeURL base s = "") ∧
    (∀ (base : GoURL) (s : String) (u : GoURL), s ≠ "" →
      startsWithList ['/', '/'] s.data = false →
      goParse s = some u → isAbs u = false →
      normalizeURL base s = urlToString { resolveReference base u with fragment := "" }) ∧
    (∀ (base : GoURL) (s : String) (u : GoURL), s ≠ "" →
      startsWithList ['/', '/'] s.data = false →
      goParse s = some u → isAbs u = true →
      normalizeURL base s = urlToString { u with fragment := "" }) ∧
    (goParse "https://x.test/css/s.css" =
       some { scheme := "https", host := "x.test", path := "/css/s.css" } ∧
     normalizeURL { scheme := "https", host := "x.test", path := "/css/s.css" }
       "img/a.png" = "https://x.test/css/img/a.png") := by
  refine ⟨fun base => rfl, ?_, ?_, ?_, ?_, by decide, by decide⟩
  · intro base s hns hpre
    simp [normalizeURL, hpre, hns]
  · intro base s hns hpre hparse
    simp [normalizeURL, hpre, hns, hparse]
  · intro base s u hns hpre hparse habs
    simp [normalizeURL, hpre, hns, hparse, habs]
  · intro base s u hns hpre hparse habs
    simp [normalizeURL, hpre, hns, hparse, habs]

theorem claim_C4_normalize_cases_witness :
    normalizeURL { scheme := "https", host := "x.test", path := "/" } ":x" = "" :=
  claim_C4_normalize_cases.2.2.1 { scheme := "https", host := "x.test", path := "/" }
    ":x" (by decide) (by decide) (by decide)

/-- Claim C5: `IsInScope` returns true exactly when the candidate URL
parses and its hostname is string-equal to the base URL's hostname
(unparsable URLs are out of scope), and in every crawl run every URL
that is ever fetched parses to the base hostname — a URL whose hostname
differs is never fetched. -/
theorem claim_C5_scope (cfg : Config) (s : CState) (h : Reachable cfg s) :
    (∀ (base : GoURL) (u : String), IsInScope base u = true ↔
       ∃ pu, goParse u = some pu ∧ hostnameOf pu = hostnameOf base) ∧
    (∀ u tm, Event.fetched u tm ∈ s.events →
       ∃ pu, goParse u = some pu ∧ hostnameOf pu = hostnameOf cfg.base) := by
  have hiff : ∀ (base : GoURL) (u : String), IsInScope base u = true ↔
      ∃ pu, goParse u = some pu ∧ hostnameOf pu = hostnameOf base := by
    intro base u
    rw [IsInScope]
    cases hg : goParse u with
    | none => simp
    | some pu => simp [beq_iff_eq]
  refine ⟨hiff, ?_⟩
  intro u tm he
  have hsc := ((inv_reachable h).ev_fetched u tm he).1
  exact (hiff cfg.base u).mp hsc

theorem claim_C5_scope_witness :
    ∃ pu, goParse "https://x.test/" = some pu ∧ hostnameOf pu = hostnameOf exCfg.base :=
  (claim_C5_scope exCfg exS8 exReach8).2 "https://x.test/" 0 (by decide)

/-- Claim C6, counterexample: it is not the case that only non-empty
normalized URLs are offered to the frontier.  In the concrete run
`exReach8`, the body of https://x.test/ yields the raw match ":bad",
whose normalization is the empty string, and the feed loop offers that
empty string to the frontier (event `offered "" 1 true`). -/
theorem claim_C6_counterexample :
    ¬ (∀ cfg s, Reachable cfg s →
        ∀ u d acc, Event.offered u d acc ∈ s.events → u ≠ "") := by
  intro hclaim
  exact hclaim exCfg exS8 exReach8 "" 1 true (by decide) rfl

/-- Claim C6 as amended: after emitting a result, extraction and
feedback run exactly when the status is 200 and the content kind is
html, css or javascript; every discovered URL is normalized and every
normalized URL — the empty ones included — is offered to the frontier at
depth+1 by a non-blocking offer: when the frontier has capacity the URL
is enqueued and a depth+1 task is spawned, and when the frontier is full
the URL is dropped with the queue unchanged and is never blocked on,
retried or requeued. -/
theorem claim_C6_amended :
    (∀ cfg resp urls, dispatchExtract cfg resp = some urls ↔
       (resp.status = 200 ∧ getContentType resp.contentType ∈ allowedKinds ∧
        urls = resp.raw.map (normalizeURL cfg.base))) ∧
    (∀ (cfg : Config) (s : CState) (l₁ l₂ : List CTask) (t : CTask)
       (u : String) (rest : List String),
       s.tasks = l₁ ++ t :: l₂ →
       t.phase = .feeding (u :: rest) →
       (s.queue.length < queueCap →
         Step cfg s
           { s with queue := s.queue ++ [u],
                    tasks := (l₁ ++ { t with phase := .feeding rest } :: l₂)
                               ++ [⟨u, t.depth + 1, .start⟩],
                    events := .offered u (t.depth + 1) true ::
                              .spawned u t.depth (t.depth + 1) :: s.events }) ∧
       (queueCap ≤ s.queue.length → s.now < cfg.timeout →
         Step cfg s
           { s with tasks := l₁ ++ { t with phase := .feeding rest } :: l₂,
                    events := .offered u (t.depth + 1) false :: s.events })) := by
  constructor
  · intro cfg resp urls
    rw [dispatchExtract]
    split
    · next hcond =>
      constructor
      · intro h'
        exact ⟨hcond.1, hcond.2, (Option.some.inj h').symm⟩
      · intro h'
        rw [h'.2.2]
    · next hcond =>
      constructor
      · intro h'
        cases h'
      · intro h'
        exact absurd ⟨h'.1, h'.2.1⟩ hcond
  · intro cfg s l₁ l₂ t u rest ht hp
    exact ⟨fun hcap => Step.offerAccept s l₁ l₂ t u rest ht hp hcap,
           fun hcap hc => Step.offerDrop s l₁ l₂ t u rest ht hp hcap hc⟩

theorem claim_C6_amended_witness : Step exCfg exS7 exS8 :=
  (claim_C6_amended.2 exCfg exS7 [] [] ⟨"https://x.test/", 0, .feeding [""]⟩ "" []
    (by decide) rfl).1 (by decide)

/-- Claim C7, counterexample: the claim's table maps a Content-Type
string to image only when it starts with "image/", but the code
(`getContentType`) uses a substring test: "application/image/png" does
not start with "image/" yet the code classifies it as image. -/
theorem claim_C7_counterexample :
    getContentType "application/image/png" = "image" ∧
    specContentTypeTable "application/image/png" = "other" ∧
    getContentType "application/image/png" ≠
      specContentTypeTable "application/image/png" :=
  ⟨by decide, by decide, by decide⟩

/-- Claim C7 as amended: the content-kind classification is the total
function of the Content-Type header given by the fixed substring table —
containing "text/html" maps to html, else containing "text/css" to css,
else containing "javascript" to javascript, else containing (rather than
starting with) "image/" to image, and anything else to other. -/
theorem claim_C7_amended (ct : String) :
    getContentType ct =
      (if containsSub ct "text/html" then "html"
       else if containsSub ct "text/css" then "css"
       else if containsSub ct "javascript" then "javascript"
       else if containsSub ct "image/" then "image"
       else "other") := by
  rw [getContentType]
  by_cases h3 : containsSub ct "javascript" = true
  · simp [h3]
  · have h3' : containsSub ct "javascript" = false := by
      cases hh : containsSub ct "javascript"
      · rfl
      · exact absurd hh h3
    have h4 : containsSub ct "application/javascript" = false := by
      cases hh : containsSub ct "application/javascript"
      · rfl
      · exact absurd (containsSub_appjs ct hh) h3
    simp [h3', h4]

/-- Claim C8, counterexample: with maxRedirects = 10 and an 11-hop chain
(ten redirects then a 200), Get does not return the 11th response — it
returns the 10th response, which is still a redirect. -/
theorem claim_C8_counterexample :
    clientGet 10 redirectChain11 = redirectChain11 10 ∧
    isRedirectStatus (redirectChain11 10).status = true ∧
    clientGet 10 redirectChain11 ≠ redirectChain11 11 :=
  ⟨by decide, by decide, by decide⟩

/-- Claim C8 as amended: the fetcher issues at most maxRedirects
requests, i.e. follows at most maxRedirects − 1 redirects; when every
response up to that point is a redirect, Get returns the
maxRedirects-th response itself as a normal (non-error) result — in
particular, for an 11-hop chain with maxRedirects = 10, Get returns the
10th response without error. -/
theorem claim_C8_amended (m : Int) (chain : Nat → HttpResponse) (hm : 1 ≤ m)
    (hred : ∀ n : Nat, 1 ≤ n → (n : Int) ≤ m →
      isRedirectStatus (chain n).status = true) :
    clientGet m chain = chain m.toNat := by
  rw [clientGet]
  exact clientGetAux_stops m chain hm hred (m.toNat + 1) 1 (by omega) (by omega)
    (by omega)

theorem claim_C8_amended_witness : clientGet 10 redirectChain11 = redirectChain11 10 := by
  have hred : ∀ n : Nat, 1 ≤ n → (n : Int) ≤ 10 →
      isRedirectStatus (redirectChain11 n).status = true := by
    intro n h1 h2
    have hn : n ≤ 10 := by omega
    simp [redirectChain11, hn, isRedirectStatus]
  exact claim_C8_amended 10 redirectChain11 (by omega) hred

/-- Claim C9: every item a pool worker dequeues from the frontier is
processed at depth 0, regardless of how deep the URL was discovered, and
only the per-URL spawned tasks carry depth+1 (each spawned task's depth
is its parent's depth plus one). -/
theorem claim_C9_worker_depth (cfg : Config) (s : CState) (h : Reachable cfg s) :
    (∀ u d, Event.dequeued u d ∈ s.events → d = 0) ∧
    (∀ u pd d, Event.spawned u pd d ∈ s.events → d = pd + 1) :=
  ⟨(inv_reachable h).ev_dequeued, (inv_reachable h).ev_spawned⟩

theorem claim_C9_worker_depth_witness :
    (∀ u d, Event.dequeued u d ∈ exS8.events → d = 0) ∧
    (∀ u pd d, Event.spawned u pd d ∈ exS8.events → d = pd + 1) :=
  claim_C9_worker_depth exCfg exS8 exReach8

/-- Claim C10: the cancellation context created at construction carries a
deadline of exactly the configured Timeout past the construction instant
(`(initState cfg).now`), it governs every fetch, and no request is issued
at or after that deadline: every fetched event of every reachable state
happened strictly before construction time plus Timeout. -/
theorem claim_C10_deadline (cfg : Config) (s : CState) (h : Reachable cfg s) :
    ∀ u tm, Event.fetched u tm ∈ s.events → tm < (initState cfg).now + cfg.timeout := by
  intro u tm he
  have htm := ((inv_reachable h).ev_fetched u tm he).2
  simpa [initState] using htm

theorem claim_C10_deadline_witness :
    (0 : Nat) < (initState exCfg).now + exCfg.timeout :=
  claim_C10_deadline exCfg exS8 exReach8 "https://x.test/" 0 (by decide)
